import Mathlib

/-!
Verification development for the plotfile-viewer field-reconstruction and
slicing engine. The packaged sources ship the documentation, the tutorial
notebooks and the notebook launcher script; the engine components (Header
Parser, Patch Catalog, Patch Loader, Field Assembler, Slice Planner,
Azimuthal Mode Combiner) are specified in the design document and are
modelled here from that specification. The launcher script
(plotfile_viewer/notebook_starter/plotfile_notebook) is embedded directly
from its source.
-/

namespace PlotfileViewer

/-- Error taxonomy of the query pipeline, one constructor per failure kind
of the specification (section 7). Modelled from the spec: the engine
implementation is absent from the packaged sources. -/
inductive QueryError where
  | MalformedHeader
  | UnsupportedGeometry
  | MissingPatchData
  | PatchOverlap
  | PatchGap
  | TruncatedPatch
  | CorruptPatch
  | AssemblyBoundsError
  | InvalidSliceAxis
  | SlicePositionOutOfRange
  | InvalidModeIndex
deriving DecidableEq

/-- Modelled from the spec (section 3): a global index-space bounding box
with inclusive lower and upper corners, one entry per dimension. -/
structure Box where
  lo : List Int
  hi : List Int
deriving DecidableEq

/-- Componentwise range membership: the cell has exactly one coordinate per
dimension and each coordinate lies between the corresponding corners. -/
def inRanges : List Int → List Int → List Int → Bool
  | [], [], [] => true
  | x :: c, l :: ls, h :: hs => (decide (l ≤ x) && decide (x ≤ h)) && inRanges c ls hs
  | _, _, _ => false

/-- Cell membership in a box. -/
def inBox (c : List Int) (b : Box) : Bool := inRanges c b.lo b.hi

/-- All integer coordinates from lo to hi, inclusive. -/
def coordRange (lo hi : Int) : List Int :=
  (List.range (hi + 1 - lo).toNat).map (fun (k : Nat) => lo + (k : Int))

/-- Enumerate every cell between two corner lists, outermost dimension
first. -/
def cellsRanges : List Int → List Int → List (List Int)
  | [], [] => [[]]
  | l :: ls, h :: hs =>
    (coordRange l h).flatMap (fun x => (cellsRanges ls hs).map (fun c => x :: c))
  | _, _ => []

/-- Enumerate the cells of a box. -/
def cellsOf (b : Box) : List (List Int) := cellsRanges b.lo b.hi

theorem mem_coordRange {l h x : Int} : x ∈ coordRange l h ↔ l ≤ x ∧ x ≤ h := by
  constructor
  · intro hx
    obtain ⟨k, hk, rfl⟩ := List.mem_map.mp hx
    have hk' := List.mem_range.mp hk
    exact ⟨by omega, by omega⟩
  · intro hx
    refine List.mem_map.mpr ⟨(x - l).toNat, List.mem_range.mpr (by omega), ?_⟩
    show l + ((x - l).toNat : Int) = x
    omega

theorem mem_cellsRanges {ls hs : List Int} {c : List Int} :
    c ∈ cellsRanges ls hs ↔ inRanges c ls hs = true := by
  induction ls generalizing c hs with
  | nil =>
    cases hs with
    | nil => cases c <;> simp [cellsRanges, inRanges]
    | cons h hs => cases c <;> simp [cellsRanges, inRanges]
  | cons l ls ih =>
    cases hs with
    | nil => cases c <;> simp [cellsRanges, inRanges]
    | cons h hs =>
      cases c with
      | nil =>
        simp [cellsRanges, inRanges, List.mem_flatMap]
      | cons x cs =>
        simp only [cellsRanges, inRanges, List.mem_flatMap, List.mem_map]
        constructor
        · rintro ⟨y, hy, c0, hc0, heq⟩
          injection heq with h1 h2
          subst h1
          subst h2
          rw [mem_coordRange] at hy
          simp [hy.1, hy.2, ih.mp hc0]
        · intro hin
          simp only [Bool.and_eq_true, decide_eq_true_eq] at hin
          exact ⟨x, mem_coordRange.mpr ⟨hin.1.1, hin.1.2⟩, cs, ih.mpr hin.2, rfl⟩

theorem mem_cellsOf {b : Box} {c : List Int} :
    c ∈ cellsOf b ↔ inBox c b = true := mem_cellsRanges

/-- Modelled from the spec (sections 3 and 4.4): one level-0 patch of one
iteration, with its global bounding box and its loaded buffer addressed by
global cell index. -/
structure Patch where
  box : Box
  val : List Int → Int

/-- A patch covers a cell when the cell lies in the patch bounding box. -/
def covers (p : Patch) (c : List Int) : Bool := inBox c p.box

/-- Modelled from the spec (4.4): copy one patch buffer into the
destination sub-region addressed by its bounding box. -/
def writePatch (dest : List Int → Option Int) (p : Patch) : List Int → Option Int :=
  fun c => if covers p c then some (p.val c) else dest c

/-- Modelled from the spec (4.4): allocate the destination once
(uninitialized, i.e. `none` everywhere), then copy each patch of the
catalog in catalog order. -/
def assemble (ps : List Patch) : List Int → Option Int :=
  ps.foldl writePatch (fun _ => none)

/-- Number of patches of the catalog that cover a given cell: the number of
times the assembler writes that destination cell. -/
def countCover (ps : List Patch) (c : List Int) : Nat :=
  (ps.filter (fun p => covers p c)).length

/-- The last patch of the catalog, in catalog order, covering a cell. -/
def lastCover (ps : List Patch) (c : List Int) : Option Patch :=
  (ps.filter (fun p => covers p c)).getLast?

theorem lastCover_eq_find? (ps : List Patch) (c : List Int) :
    lastCover ps c = ps.reverse.find? (fun p => covers p c) := by
  simp [lastCover]

theorem foldl_writePatch (init : List Int → Option Int) (ps : List Patch) (c : List Int) :
    ps.foldl writePatch init c =
      match ps.reverse.find? (fun p => covers p c) with
      | some p => some (p.val c)
      | none => init c := by
  induction ps generalizing init with
  | nil => simp
  | cons p ps ih =>
    simp only [List.foldl_cons, List.reverse_cons, List.find?_append]
    rw [ih (writePatch init p)]
    cases hfind : ps.reverse.find? (fun q => covers q c) with
    | some q => simp [Option.or]
    | none =>
      simp only [Option.none_or]
      by_cases hc : covers p c
      · simp [List.find?, hc, writePatch]
      · simp [List.find?, hc, writePatch]

theorem assemble_eq_lastCover (ps : List Patch) (c : List Int) :
    assemble ps c =
      match lastCover ps c with
      | some p => some (p.val c)
      | none => none := by
  rw [lastCover_eq_find?]
  exact foldl_writePatch _ ps c

/-- Disjointness of two boxes: no cell lies in both. -/
def boxesDisjoint (b1 b2 : Box) : Bool :=
  (cellsOf b1).all (fun c => !(inBox c b2))

/-- Containment of one box in another, cellwise. -/
def boxSubset (b1 b2 : Box) : Bool :=
  (cellsOf b1).all (fun c => inBox c b2)

/-- Pairwise disjointness of the patch boxes of a catalog. -/
def pairwiseDisjoint : List Patch → Bool
  | [] => true
  | p :: ps => ps.all (fun q => boxesDisjoint p.box q.box) && pairwiseDisjoint ps

/-- Modelled from the spec (section 3): the parse-time tiling invariant.
Level-0 patches of one iteration lie inside the domain box, do not overlap
pairwise in index space, and together cover every cell of the domain box. -/
def tilesExactly (domain : Box) (ps : List Patch) : Bool :=
  (ps.all (fun p => boxSubset p.box domain) && pairwiseDisjoint ps) &&
    (cellsOf domain).all (fun c => ps.any (fun p => covers p c))

theorem countCover_le_one_of_pairwiseDisjoint {ps : List Patch}
    (hd : pairwiseDisjoint ps = true) (c : List Int) : countCover ps c ≤ 1 := by
  induction ps with
  | nil => simp [countCover]
  | cons p ps ih =>
    simp only [pairwiseDisjoint, Bool.and_eq_true, List.all_eq_true] at hd
    obtain ⟨hall, hrest⟩ := hd
    by_cases hc : covers p c = true
    · have hnone : ∀ q ∈ ps, ¬ (covers q c = true) := by
        intro q hq hqc
        have hdisj := hall q hq
        have hcmem : c ∈ cellsOf p.box := mem_cellsOf.mpr hc
        have := List.all_eq_true.mp hdisj c hcmem
        simp only [Bool.not_eq_true'] at this
        exact absurd hqc (by simp [covers, this])
      have hfilter : ps.filter (fun q => covers q c) = [] :=
        List.filter_eq_nil_iff.mpr (fun q hq => by simpa using hnone q hq)
      simp [countCover, List.filter_cons, hc, hfilter]
    · simp only [countCover, List.filter_cons, hc]
      simpa [countCover] using ih hrest

theorem countCover_pos_of_covers {ps : List Patch} {c : List Int} {p : Patch}
    (hp : p ∈ ps) (hc : covers p c = true) : 1 ≤ countCover ps c := by
  have : p ∈ ps.filter (fun q => covers q c) := List.mem_filter.mpr ⟨hp, hc⟩
  have := List.length_pos.mpr (List.ne_nil_of_mem this)
  simpa [countCover] using this

theorem tilesExactly_countCover {domain : Box} {ps : List Patch}
    (ht : tilesExactly domain ps = true) :
    ∀ c, inBox c domain = true → countCover ps c = 1 := by
  intro c hc
  simp only [tilesExactly, Bool.and_eq_true, List.all_eq_true] at ht
  obtain ⟨⟨_, hdisj⟩, hcover⟩ := ht
  have hmem : c ∈ cellsOf domain := mem_cellsOf.mpr hc
  obtain ⟨p, hp, hpc⟩ := List.any_eq_true.mp (hcover c hmem)
  have h1 := countCover_le_one_of_pairwiseDisjoint hdisj c
  have h2 := countCover_pos_of_covers hp hpc
  omega

theorem lastCover_eq_of_countCover_one {ps : List Patch} {c : List Int} {p : Patch}
    (hcount : countCover ps c = 1) (hp : p ∈ ps) (hc : covers p c = true) :
    lastCover ps c = some p := by
  obtain ⟨q, hq⟩ := List.length_eq_one.mp hcount
  have hpf : p ∈ ps.filter (fun r => covers r c) := List.mem_filter.mpr ⟨hp, hc⟩
  rw [hq] at hpf
  simp only [List.mem_singleton] at hpf
  subst hpf
  simp [lastCover, hq]

/-- Claim C1. When the level-0 patches exactly tile the domain box, the
assembler writes every domain cell exactly once (the coverage count is one),
leaves no domain cell uninitialized, and gives each cell the value of the
unique patch covering it. Without the invariant, every covered cell (in
particular every multiply covered cell) holds the value of the last patch
covering it in catalog order. -/
theorem assembler_exactly_once_and_last_write_wins (domain : Box) (ps : List Patch) :
    (tilesExactly domain ps = true →
      ∀ c, inBox c domain = true →
        countCover ps c = 1 ∧
        assemble ps c ≠ none ∧
        ∀ p ∈ ps, covers p c = true → assemble ps c = some (p.val c)) ∧
    (∀ c, 1 ≤ countCover ps c →
      ∃ p, lastCover ps c = some p ∧ assemble ps c = some (p.val c)) := by
  constructor
  · intro ht c hc
    have hcount := tilesExactly_countCover ht c hc
    have hval : ∀ p ∈ ps, covers p c = true → assemble ps c = some (p.val c) := by
      intro p hp hpc
      have hlast := lastCover_eq_of_countCover_one hcount hp hpc
      rw [assemble_eq_lastCover, hlast]
    refine ⟨hcount, ?_, hval⟩
    obtain ⟨q, hq⟩ := List.length_eq_one.mp hcount
    have hqmem : q ∈ ps.filter (fun r => covers r c) := by simp [hq]
    have hval' := hval q (List.mem_filter.mp hqmem).1 (List.mem_filter.mp hqmem).2
    simp [hval']
  · intro c hcount
    have hne : ps.filter (fun r => covers r c) ≠ [] := by
      intro hnil
      simp [countCover, hnil] at hcount
    obtain ⟨p, hp⟩ := Option.ne_none_iff_exists'.mp
      (mt List.getLast?_eq_none_iff.mp hne)
    exact ⟨p, hp, by rw [assemble_eq_lastCover, lastCover, hp]⟩

/-- Cell coverage count over bare bounding boxes (what the catalog knows
before any payload is loaded). -/
def coverCount (bs : List Box) (c : List Int) : Nat :=
  (bs.filter (fun b => inBox c b)).length

theorem countCover_eq_coverCount (ps : List Patch) (c : List Int) :
    countCover ps c = coverCount (ps.map Patch.box) c := by
  simp [countCover, coverCount, List.filter_map, covers, Function.comp_def]

/-- Some domain cell is covered by at least two catalog boxes. -/
def hasOverlapOn (domain : Box) (bs : List Box) : Bool :=
  (cellsOf domain).any (fun c => decide (2 ≤ coverCount bs c))

/-- Some domain cell is covered by no catalog box. -/
def hasGapOn (domain : Box) (bs : List Box) : Bool :=
  (cellsOf domain).any (fun c => decide (coverCount bs c = 0))

/-- Modelled from the spec (4.2): the Patch Catalog validates the tiling
invariant and fails with PatchOverlap or PatchGap when it is violated,
unless consistency checking is explicitly disabled by the caller, in which
case both checks are skipped. -/
def validateCatalog (checkConsistency : Bool) (domain : Box) (bs : List Box) :
    Option QueryError :=
  if checkConsistency then
    if hasOverlapOn domain bs then some .PatchOverlap
    else if hasGapOn domain bs then some .PatchGap
    else none
  else none

/-- Claim C2. Under strict validation the catalog fails with PatchOverlap
or PatchGap exactly when the boxes fail to exactly tile the domain (some
domain cell is not covered exactly once); a PatchOverlap report means some
domain cell is multiply covered and a PatchGap report means some domain
cell is uncovered; and with consistency checking disabled neither error is
ever raised. -/
theorem catalog_validation_iff_tiling_defect (domain : Box) (bs : List Box) :
    ((validateCatalog true domain bs = some .PatchOverlap ∨
        validateCatalog true domain bs = some .PatchGap) ↔
      ¬ (∀ c ∈ cellsOf domain, coverCount bs c = 1)) ∧
    (validateCatalog true domain bs = some .PatchOverlap →
      ∃ c ∈ cellsOf domain, 2 ≤ coverCount bs c) ∧
    (validateCatalog true domain bs = some .PatchGap →
      ∃ c ∈ cellsOf domain, coverCount bs c = 0) ∧
    validateCatalog false domain bs = none := by
  have hov : hasOverlapOn domain bs = true ↔ ∃ c ∈ cellsOf domain, 2 ≤ coverCount bs c := by
    simp [hasOverlapOn, List.any_eq_true]
  have hgap : hasGapOn domain bs = true ↔ ∃ c ∈ cellsOf domain, coverCount bs c = 0 := by
    simp [hasGapOn, List.any_eq_true]
  refine ⟨?_, ?_, ?_, rfl⟩
  · constructor
    · intro herr hall
      rcases herr with h | h
      · rw [validateCatalog] at h
        by_cases ho : hasOverlapOn domain bs
        · obtain ⟨c, hcmem, hc2⟩ := hov.mp ho
          have := hall c hcmem
          omega
        · by_cases hg : hasGapOn domain bs <;> simp [ho, hg] at h
      · rw [validateCatalog] at h
        by_cases ho : hasOverlapOn domain bs
        · simp [ho] at h
        · by_cases hg : hasGapOn domain bs
          · obtain ⟨c, hcmem, hc0⟩ := hgap.mp hg
            have := hall c hcmem
            omega
          · simp [ho, hg] at h
    · intro hnall
      rw [validateCatalog]
      by_cases ho : hasOverlapOn domain bs
      · exact Or.inl (by simp [ho])
      · by_cases hg : hasGapOn domain bs
        · exact Or.inr (by simp [ho, hg])
        · exfalso
          apply hnall
          intro c hcmem
          have h2 : ¬ (2 ≤ coverCount bs c) := fun h => ho (hov.mpr ⟨c, hcmem, h⟩)
          have h0 : ¬ (coverCount bs c = 0) := fun h => hg (hgap.mpr ⟨c, hcmem, h⟩)
          omega
  · intro h
    rw [validateCatalog] at h
    by_cases ho : hasOverlapOn domain bs
    · exact hov.mp ho
    · by_cases hg : hasGapOn domain bs <;> simp [ho, hg] at h
  · intro h
    rw [validateCatalog] at h
    by_cases ho : hasOverlapOn domain bs
    · simp [ho] at h
    · by_cases hg : hasGapOn domain bs
      · exact hgap.mp hg
      · simp [ho, hg] at h

/-- Modelled from the spec (section 3): geometry kinds supported by the
viewer, a closed tagged variant selected once at parse time. -/
inductive Geometry where
  | cartesian2d
  | cartesian3d
  | cylindrical
deriving DecidableEq

/-- Native axis names of each geometry, in array order. -/
def geomAxes : Geometry → List String
  | .cartesian2d => ["x", "z"]
  | .cartesian3d => ["x", "y", "z"]
  | .cylindrical => ["r", "z"]

/-- An assembled contiguous array: ordered axis names, the per-axis
inclusive global index bounds, and the dense data addressed by cell. -/
structure Assembled where
  axes : List String
  box : Box
  data : List Int → Option Int

/-- Dimensionality of an assembled array. -/
def Assembled.ndim (a : Assembled) : Nat := a.axes.length

/-- Modelled from the spec (4.5 and section 3, SliceSpec): the exact
fractional coordinate a relative position in [-1, 1] maps to, linearly
over the inclusive index range of the sliced axis: -1 to the lower bound,
+1 to the upper bound, 0 to the midpoint. -/
def relPosCoord (lo hi : Int) (pos : ℚ) : ℚ :=
  (lo : ℚ) + (pos + 1) / 2 * ((hi : ℚ) - (lo : ℚ))

/-- Modelled from the spec (4.5): the nearest valid integer index along the
sliced axis, clamped to the valid range. -/
def relPosToIndex (lo hi : Int) (pos : ℚ) : Int :=
  max lo (min hi (round (relPosCoord lo hi pos)))

/-- Modelled from the spec (4.5): one single-axis reduction of the Slice
Planner. A named axis absent from the geometry is InvalidSliceAxis; a
relative position outside [-1, 1] is SlicePositionOutOfRange; otherwise
the array is returned with that axis removed, the sliced axis fixed at the
computed index. -/
def sliceOnce (a : Assembled) (axis : String) (pos : ℚ) : Except QueryError Assembled :=
  match a.axes.findIdx? (fun s => s == axis) with
  | none => .error .InvalidSliceAxis
  | some k =>
    if pos < -1 ∨ 1 < pos then .error .SlicePositionOutOfRange
    else
      .ok { axes := a.axes.eraseIdx k,
            box := { lo := a.box.lo.eraseIdx k, hi := a.box.hi.eraseIdx k },
            data := fun c =>
              a.data (c.insertIdx k (relPosToIndex (a.box.lo.getD k 0) (a.box.hi.getD k 0) pos)) }

/-- Modelled from the spec (4.5): multiple named axes are reduced one at a
time, in the order given. -/
def sliceMulti (a : Assembled) : List (String × ℚ) → Except QueryError Assembled
  | [] => .ok a
  | (ax, p) :: rest =>
    match sliceOnce a ax p with
    | .error e => .error e
    | .ok a2 => sliceMulti a2 rest

theorem findIdx?_eq_none_iff_not_mem {axes : List String} {axis : String} :
    axes.findIdx? (fun s => s == axis) = none ↔ axis ∉ axes := by
  rw [List.findIdx?_eq_none_iff]
  constructor
  · intro hall hmem
    have := hall axis hmem
    simp at this
  · intro hnm s hs
    by_cases h : s = axis
    · exact absurd (h ▸ hs) hnm
    · simp [h]

theorem relPosToIndex_neg_one (lo hi : Int) : relPosToIndex lo hi (-1) = lo := by
  have : relPosCoord lo hi (-1) = (lo : ℚ) := by
    simp [relPosCoord]
  rw [relPosToIndex, this, round_intCast]
  omega

theorem relPosToIndex_pos_one {lo hi : Int} (h : lo ≤ hi) : relPosToIndex lo hi 1 = hi := by
  have : relPosCoord lo hi 1 = (hi : ℚ) := by
    rw [relPosCoord]
    ring
  rw [relPosToIndex, this, round_intCast]
  omega

theorem mem_axes_of_findIdx {axes : List String} {axis : String} {k : Nat}
    (h : axes.findIdx? (fun s => s == axis) = some k) : axis ∈ axes := by
  obtain ⟨hk, hp, -⟩ := List.findIdx?_eq_some_iff_getElem.mp h
  have : axes[k] = axis := by simpa using hp
  exact this ▸ List.getElem_mem hk

/-- The sliced array produced by a successful single-axis reduction. -/
def slicedAt (a : Assembled) (k : Nat) (pos : ℚ) : Assembled :=
  { axes := a.axes.eraseIdx k,
    box := { lo := a.box.lo.eraseIdx k, hi := a.box.hi.eraseIdx k },
    data := fun c =>
      a.data (c.insertIdx k (relPosToIndex (a.box.lo.getD k 0) (a.box.hi.getD k 0) pos)) }

theorem sliceOnce_eq_ok {a : Assembled} {axis : String} {k : Nat} {pos : ℚ}
    (hfind : a.axes.findIdx? (fun s => s == axis) = some k)
    (hpos : ¬ (pos < -1 ∨ 1 < pos)) :
    sliceOnce a axis pos = .ok (slicedAt a k pos) := by
  unfold sliceOnce
  rw [hfind]
  show (if pos < -1 ∨ 1 < pos then Except.error QueryError.SlicePositionOutOfRange
    else Except.ok (slicedAt a k pos)) = Except.ok (slicedAt a k pos)
  exact if_neg hpos

/-- Claim C4 (amended). The Slice Planner fails with InvalidSliceAxis
exactly when the named axis does not exist in the array geometry, and
fails with SlicePositionOutOfRange exactly when the axis exists and the
relative position lies outside [-1, 1] (the axis-existence check takes
precedence, so an unknown axis is reported as InvalidSliceAxis even when
the position is also out of range); the boundary values -1 and +1 are not
errors and select the extreme valid index on the axis. -/
theorem slice_planner_error_characterization (a : Assembled) (axis : String) (pos : ℚ) :
    (sliceOnce a axis pos = .error .InvalidSliceAxis ↔ axis ∉ a.axes) ∧
    (sliceOnce a axis pos = .error .SlicePositionOutOfRange ↔
      axis ∈ a.axes ∧ (pos < -1 ∨ 1 < pos)) ∧
    (∀ k, a.axes.findIdx? (fun s => s == axis) = some k →
      (∃ r, sliceOnce a axis (-1) = .ok r ∧
        ∀ c, r.data c = a.data (c.insertIdx k (a.box.lo.getD k 0))) ∧
      (a.box.lo.getD k 0 ≤ a.box.hi.getD k 0 →
        ∃ r, sliceOnce a axis 1 = .ok r ∧
          ∀ c, r.data c = a.data (c.insertIdx k (a.box.hi.getD k 0)))) := by
  refine ⟨?_, ?_, ?_⟩
  · rw [sliceOnce]
    cases hfind : a.axes.findIdx? (fun s => s == axis) with
    | none => simp [findIdx?_eq_none_iff_not_mem.mp hfind]
    | some k =>
      have hmem := mem_axes_of_findIdx hfind
      by_cases hrange : pos < -1 ∨ 1 < pos <;> simp [hrange, hmem]
  · rw [sliceOnce]
    cases hfind : a.axes.findIdx? (fun s => s == axis) with
    | none =>
      have := findIdx?_eq_none_iff_not_mem.mp hfind
      simp [this]
    | some k =>
      have hmem := mem_axes_of_findIdx hfind
      by_cases hrange : pos < -1 ∨ 1 < pos <;> simp [hrange, hmem]
  · intro k hfind
    constructor
    · refine ⟨slicedAt a k (-1), sliceOnce_eq_ok hfind (by norm_num), ?_⟩
      intro c
      simp only [slicedAt, relPosToIndex_neg_one]
    · intro hle
      refine ⟨slicedAt a k 1, sliceOnce_eq_ok hfind (by norm_num), ?_⟩
      intro c
      simp only [slicedAt, relPosToIndex_pos_one hle]

/-- A witness input for the amended claim C4: a 3D Cartesian array. -/
def exCart3 : Assembled :=
  { axes := geomAxes .cartesian3d,
    box := { lo := [0, 0, 0], hi := [3, 3, 3] },
    data := fun c => some (c.headD 0) }

/-- Counterexample to claim C4 as stated: on the 3D Cartesian geometry the
request for the nonexistent axis w at relative position 2 has its position
outside [-1, 1], yet the planner does not fail with
SlicePositionOutOfRange (it reports InvalidSliceAxis, the axis check
taking precedence). -/
theorem slice_position_error_iff_counterexample :
    ((2 : ℚ) < -1 ∨ 1 < (2 : ℚ)) ∧
    sliceOnce exCart3 "w" 2 = .error .InvalidSliceAxis ∧
    sliceOnce exCart3 "w" 2 ≠ .error .SlicePositionOutOfRange := by
  refine ⟨Or.inr (by norm_num), rfl, ?_⟩
  intro h
  rw [show sliceOnce exCart3 "w" 2 = .error .InvalidSliceAxis from rfl] at h
  simp at h

/-- Claim C5. Assembling and then slicing at relative position -1 on an
axis yields the plane of the full unsliced assembled array at that axis
lowest index, and +1 yields the plane at its highest index; the underlying
relative-position mapping sends -1 to the axis lower bound and +1 to its
upper bound and is linear (it preserves affine combinations). -/
theorem slice_extremes_boundary_planes
    (ps : List Patch) (axes : List String) (domain : Box) (axis : String) (k : Nat)
    (hfind : axes.findIdx? (fun s => s == axis) = some k)
    (hle : domain.lo.getD k 0 ≤ domain.hi.getD k 0) :
    (∃ r, sliceOnce ⟨axes, domain, assemble ps⟩ axis (-1) = .ok r ∧
      ∀ c, r.data c = assemble ps (c.insertIdx k (domain.lo.getD k 0))) ∧
    (∃ r, sliceOnce ⟨axes, domain, assemble ps⟩ axis 1 = .ok r ∧
      ∀ c, r.data c = assemble ps (c.insertIdx k (domain.hi.getD k 0))) ∧
    relPosCoord (domain.lo.getD k 0) (domain.hi.getD k 0) (-1) = ((domain.lo.getD k 0 : Int) : ℚ) ∧
    relPosCoord (domain.lo.getD k 0) (domain.hi.getD k 0) 1 = ((domain.hi.getD k 0 : Int) : ℚ) ∧
    (∀ lo hi : Int, ∀ p1 p2 t : ℚ,
      relPosCoord lo hi (t * p1 + (1 - t) * p2) =
        t * relPosCoord lo hi p1 + (1 - t) * relPosCoord lo hi p2) := by
  refine ⟨?_, ?_, by simp [relPosCoord], by rw [relPosCoord]; ring, ?_⟩
  · refine ⟨slicedAt ⟨axes, domain, assemble ps⟩ k (-1), sliceOnce_eq_ok hfind (by norm_num), ?_⟩
    intro c
    simp only [slicedAt, relPosToIndex_neg_one]
  · refine ⟨slicedAt ⟨axes, domain, assemble ps⟩ k 1, sliceOnce_eq_ok hfind (by norm_num), ?_⟩
    intro c
    simp only [slicedAt, relPosToIndex_pos_one hle]
  · intro lo hi p1 p2 t
    rw [relPosCoord, relPosCoord, relPosCoord]
    ring

/-- Claim C7. A slice request with no axis specified returns the assembled
array unchanged, so the result dimensionality equals the geometry native
dimensionality: 2 for cartesian2d and 3 for cartesian3d. -/
theorem no_slice_returns_unchanged (a : Assembled) :
    sliceMulti a [] = .ok a ∧
    (a.axes = geomAxes .cartesian2d → a.ndim = 2) ∧
    (a.axes = geomAxes .cartesian3d → a.ndim = 3) := by
  refine ⟨rfl, ?_, ?_⟩ <;> intro h <;> simp [Assembled.ndim, h, geomAxes]

/-- The cell of the original array addressed by a reduced cell: walking the
original axes in order, an axis named in the slice request list is fixed at
the index its relative position maps to over that axis ORIGINAL extents,
and every other axis takes the next coordinate of the reduced cell. -/
def fillCell : List String → List Int → List Int → List (String × ℚ) → List Int → List Int
  | [], _, _, _, _ => []
  | ax :: axs, l :: ls, h :: hs, specs, c =>
    match specs.find? (fun sp => sp.1 == ax) with
    | some sp => relPosToIndex l h sp.2 :: fillCell axs ls hs specs c
    | none =>
      match c with
      | [] => []
      | x :: xs => x :: fillCell axs ls hs specs xs
  | _ :: _, _, _, _, _ => []

theorem fillCell_spec_not_mem {axes : List String} {lo hi : List Int}
    {sp : String × ℚ} {rest : List (String × ℚ)} {c : List Int}
    (h : sp.1 ∉ axes) :
    fillCell axes lo hi (sp :: rest) c = fillCell axes lo hi rest c := by
  induction axes generalizing lo hi c with
  | nil => simp [fillCell]
  | cons b axs ih =>
    have hb : sp.1 ≠ b := fun hbe => h (hbe ▸ List.mem_cons_self b axs)
    have hnm : sp.1 ∉ axs := fun hm => h (List.mem_cons_of_mem b hm)
    cases lo with
    | nil => simp [fillCell]
    | cons l ls =>
      cases hi with
      | nil => simp [fillCell]
      | cons h1 hs =>
        simp only [fillCell, List.find?_cons]
        have : (sp.1 == b) = false := by simpa using hb
        rw [this]
        cases hfind : rest.find? (fun q => q.1 == b) with
        | some q => simp [ih hnm]
        | none =>
          cases c with
          | nil => simp
          | cons x xs => simp [ih hnm]

theorem mem_eraseIdx_of_ne {axes : List String} {s ax : String} {k : Nat}
    (hmem : s ∈ axes) (hne : s ≠ ax) (hk : axes[k]? = some ax) :
    s ∈ axes.eraseIdx k := by
  induction axes generalizing k with
  | nil => simp at hmem
  | cons b axs ih =>
    cases k with
    | zero =>
      simp only [List.getElem?_cons_zero, Option.some.injEq] at hk
      subst hk
      rcases List.mem_cons.mp hmem with rfl | hm
      · exact absurd rfl hne
      · simpa [List.eraseIdx] using hm
    | succ k =>
      simp only [List.getElem?_cons_succ] at hk
      rcases List.mem_cons.mp hmem with rfl | hm
      · simp [List.eraseIdx]
      · simp only [List.eraseIdx_cons_succ, List.mem_cons]
        exact Or.inr (ih hm hk)

theorem fillCell_insertIdx :
    ∀ (axes : List String) (k : Nat) (lo hi : List Int) (rest : List (String × ℚ))
      (ax : String) (p : ℚ) (c : List Int),
      lo.length = axes.length → hi.length = axes.length →
      axes.Nodup → axes[k]? = some ax →
      (fillCell (axes.eraseIdx k) (lo.eraseIdx k) (hi.eraseIdx k) rest c).insertIdx k
          (relPosToIndex (lo.getD k 0) (hi.getD k 0) p)
        = fillCell axes lo hi ((ax, p) :: rest) c := by
  intro axes
  induction axes with
  | nil => intro k lo hi rest ax p c _ _ _ hk; simp at hk
  | cons b axs ih =>
    intro k lo hi rest ax p c hlo hhi hnd hk
    cases lo with
    | nil => simp at hlo
    | cons l ls =>
      cases hi with
      | nil => simp at hhi
      | cons h hs =>
        have hls : ls.length = axs.length := by simpa using hlo
        have hhs : hs.length = axs.length := by simpa using hhi
        have hbaxs : b ∉ axs := (List.nodup_cons.mp hnd).1
        have hndaxs : axs.Nodup := (List.nodup_cons.mp hnd).2
        cases k with
        | zero =>
          simp only [List.getElem?_cons_zero, Option.some.injEq] at hk
          subst hk
          simp only [List.eraseIdx_zero, List.eraseIdx, List.getD_cons_zero]
          rw [List.insertIdx_zero]
          simp only [fillCell, List.find?_cons]
          have : (b == b) = true := by simp
          rw [show ((b, p).1 == b) = true by simp]
          rw [fillCell_spec_not_mem (by simpa using hbaxs)]
        | succ k =>
          simp only [List.getElem?_cons_succ] at hk
          have hbax : b ≠ ax := by
            intro hbe
            subst hbe
            exact hbaxs (List.getElem?_mem hk)
          simp only [List.eraseIdx_cons_succ, List.getD_cons_succ]
          simp only [fillCell, List.find?_cons]
          rw [show ((ax, p).1 == b) = false by simpa using (Ne.symm hbax)]
          cases hfind : rest.find? (fun q => q.1 == b) with
          | some q =>
            simp only
            rw [List.insertIdx_succ_cons]
            rw [ih k ls hs rest ax p c hls hhs hndaxs hk]
          | none =>
            cases c with
            | nil =>
              simp only
              rw [List.insertIdx_succ_nil]
            | cons x xs =>
              simp only
              rw [List.insertIdx_succ_cons]
              rw [ih k ls hs rest ax p xs hls hhs hndaxs hk]

theorem fillCell_nil_spec :
    ∀ (axes : List String) (lo hi c : List Int),
      lo.length = axes.length → hi.length = axes.length → c.length = axes.length →
      fillCell axes lo hi [] c = c := by
  intro axes
  induction axes with
  | nil =>
    intro lo hi c _ _ hc
    rw [List.length_eq_zero.mp hc]
    rfl
  | cons b axs ih =>
    intro lo hi c hlo hhi hc
    cases lo with
    | nil => simp at hlo
    | cons l ls =>
      cases hi with
      | nil => simp at hhi
      | cons h hs =>
        cases c with
        | nil => simp at hc
        | cons x xs =>
          simp only [fillCell, List.find?_nil]
          rw [ih ls hs xs (by simpa using hlo) (by simpa using hhi) (by simpa using hc)]

/-- Claim C6. A slice request naming multiple axes is processed one axis at
a time, in the order given (that is how sliceMulti runs), and the
composite result is the original array addressed through fillCell: every
named axis is fixed at the index obtained from the ORIGINAL domain extents
of that axis, never from the extents of an already-reduced intermediate
array. -/
theorem multi_axis_slice_uses_original_extents :
    ∀ (specs : List (String × ℚ)) (axes : List String) (lo hi : List Int)
      (data : List Int → Option Int),
      lo.length = axes.length → hi.length = axes.length →
      axes.Nodup → (specs.map Prod.fst).Nodup →
      (∀ sp ∈ specs, sp.1 ∈ axes) →
      (∀ sp ∈ specs, ¬ (sp.2 < -1 ∨ 1 < sp.2)) →
      ∃ r, sliceMulti ⟨axes, ⟨lo, hi⟩, data⟩ specs = .ok r ∧
        ∀ c, c.length = axes.length - specs.length →
          r.data c = data (fillCell axes lo hi specs c) := by
  intro specs
  induction specs with
  | nil =>
    intro axes lo hi data hlo hhi _ _ _ _
    refine ⟨⟨axes, ⟨lo, hi⟩, data⟩, rfl, ?_⟩
    intro c hc
    show data c = data (fillCell axes lo hi [] c)
    rw [fillCell_nil_spec axes lo hi c hlo hhi (by simpa using hc)]
  | cons sp rest ih =>
    intro axes lo hi data hlo hhi hnd hspnd hmem hrange
    obtain ⟨ax, p⟩ := sp
    have hmemax : ax ∈ axes := hmem (ax, p) (List.mem_cons_self _ _)
    obtain ⟨k, hfind⟩ : ∃ k, axes.findIdx? (fun s => s == ax) = some k := by
      cases hf : axes.findIdx? (fun s => s == ax) with
      | none => exact absurd hmemax (findIdx?_eq_none_iff_not_mem.mp hf)
      | some k => exact ⟨k, rfl⟩
    obtain ⟨hk, hpk, -⟩ := List.findIdx?_eq_some_iff_getElem.mp hfind
    have hgetk : axes[k]? = some ax := by
      rw [List.getElem?_eq_getElem hk]
      simpa using hpk
    have hone := sliceOnce_eq_ok (a := ⟨axes, ⟨lo, hi⟩, data⟩) hfind
      (hrange (ax, p) (List.mem_cons_self _ _))
    rw [List.map_cons] at hspnd
    have haxnotrest : ∀ q ∈ rest, q.1 ≠ ax := by
      intro q hq
      have hnin := (List.nodup_cons.mp hspnd).1
      intro hqe
      exact hnin (List.mem_map.mpr ⟨q, hq, hqe⟩)
    have hklo : k < lo.length := by omega
    have hkhi : k < hi.length := by omega
    have ihr := ih (axes.eraseIdx k) (lo.eraseIdx k) (hi.eraseIdx k)
      (fun c => data (c.insertIdx k (relPosToIndex (lo.getD k 0) (hi.getD k 0) p)))
      (by rw [List.length_eraseIdx_of_lt hklo, List.length_eraseIdx_of_lt hk]; omega)
      (by rw [List.length_eraseIdx_of_lt hkhi, List.length_eraseIdx_of_lt hk]; omega)
      (List.Nodup.sublist (List.eraseIdx_sublist axes k) hnd)
      ((List.nodup_cons.mp hspnd).2)
      (fun q hq => mem_eraseIdx_of_ne (hmem q (List.mem_cons_of_mem _ hq))
        (haxnotrest q hq) hgetk)
      (fun q hq => hrange q (List.mem_cons_of_mem _ hq))
    obtain ⟨r, hslice, hdata⟩ := ihr
    refine ⟨r, ?_, ?_⟩
    · show (match sliceOnce ⟨axes, ⟨lo, hi⟩, data⟩ ax p with
        | Except.error e => Except.error e
        | Except.ok a2 => sliceMulti a2 rest) = Except.ok r
      rw [hone]
      exact hslice
    · intro c hc
      have hlen : c.length = (axes.eraseIdx k).length - rest.length := by
        rw [List.length_eraseIdx_of_lt hk]
        simp only [List.length_cons] at hc
        omega
      have hd := hdata c hlen
      rw [hd]
      show data ((fillCell (axes.eraseIdx k) (lo.eraseIdx k) (hi.eraseIdx k) rest c).insertIdx k
        (relPosToIndex (lo.getD k 0) (hi.getD k 0) p)) = _
      rw [fillCell_insertIdx axes k lo hi rest ax p c hlo hhi hnd hgetk]

/-- Modelled from the spec (section 3, Field): the stored azimuthal mode
structure of one cylindrical field. Mode 0 is a single real-valued
component array; mode m for m at least 1 is a (real, imaginary) pair of
arrays, held at entry m - 1 of higher. Arrays are addressed by (r, z)
index pair. -/
structure CylField where
  mode0 : Nat × Nat → ℝ
  higher : List ((Nat × Nat → ℝ) × (Nat × Nat → ℝ))

/-- The stored mode index set: 0 together with 1 .. higher.length. -/
def CylField.storedModes (f : CylField) : List Nat :=
  List.range (f.higher.length + 1)

/-- The all-zero component pair, used only as a getD default outside the
stored range. -/
def zeroPair : (Nat × Nat → ℝ) × (Nat × Nat → ℝ) := (fun _ => 0, fun _ => 0)

/-- Modelled from the spec (4.6): the physical-angle reconstruction of one
stored mode at observation angle theta: the stored array for mode 0, and
real * cosF(m * theta) + imag * sinF(m * theta) for m at least 1. The
trigonometric functions are parameters of the embedding; the claims
instantiate them with Real.cos and Real.sin. -/
def reconAt (cosF sinF : ℝ → ℝ) (f : CylField) (m : Nat) (θ : ℝ) : Nat × Nat → ℝ :=
  if m = 0 then f.mode0
  else fun i =>
    (f.higher.getD (m - 1) zeroPair).1 i * cosF ((m : ℝ) * θ) +
      (f.higher.getD (m - 1) zeroPair).2 i * sinF ((m : ℝ) * θ)

/-- Modelled from the spec (4.6): the Azimuthal Mode Combiner at a specific
mode index; a mode index absent from the stored set is InvalidModeIndex. -/
def combineMode (cosF sinF : ℝ → ℝ) (f : CylField) (m : Nat) (θ : ℝ) :
    Except QueryError (Nat × Nat → ℝ) :=
  if m = 0 then .ok f.mode0
  else
    match f.higher[m - 1]? with
    | none => .error .InvalidModeIndex
    | some pr => .ok (fun i =>
        pr.1 i * cosF ((m : ℝ) * θ) + pr.2 i * sinF ((m : ℝ) * θ))

/-- Modelled from the spec (4.6): the mode = all combination at a fixed
angle sums the per-mode reconstruction over every stored mode index. -/
def combineAll (cosF sinF : ℝ → ℝ) (f : CylField) (θ : ℝ) : Nat × Nat → ℝ :=
  fun i => (f.storedModes.map (fun m => reconAt cosF sinF f m θ i)).sum

/-- Claim C3. At a specific mode the combiner returns the stored mode-0
array unchanged for m = 0 (independently of theta), and
real * cos(m theta) + imag * sin(m theta) elementwise for stored m at
least 1; with mode = all and theta given it returns the elementwise sum of
that reconstruction over mode 0 and every stored higher mode. -/
theorem azimuthal_mode_combination (f : CylField) (θ : ℝ) :
    (combineMode Real.cos Real.sin f 0 θ = .ok f.mode0) ∧
    (∀ m : Nat, 1 ≤ m → ∀ pr, f.higher[m - 1]? = some pr →
      combineMode Real.cos Real.sin f m θ =
        .ok (fun i => pr.1 i * Real.cos ((m : ℝ) * θ) + pr.2 i * Real.sin ((m : ℝ) * θ))) ∧
    (∀ i, combineAll Real.cos Real.sin f θ i =
      f.mode0 i + ((List.range f.higher.length).map (fun k =>
        (f.higher.getD k zeroPair).1 i * Real.cos (((k + 1 : Nat) : ℝ) * θ) +
        (f.higher.getD k zeroPair).2 i * Real.sin (((k + 1 : Nat) : ℝ) * θ))).sum) := by
  refine ⟨rfl, ?_, ?_⟩
  · intro m hm pr hpr
    have hm0 : m ≠ 0 := by omega
    rw [combineMode, if_neg hm0, hpr]
  · intro i
    rw [combineAll, CylField.storedModes, List.range_succ_eq_map, List.map_cons,
      List.map_map, List.sum_cons]
    have h0 : reconAt Real.cos Real.sin f 0 θ i = f.mode0 i := by
      rw [reconAt, if_pos rfl]
    have hfun : ((fun m => reconAt Real.cos Real.sin f m θ i) ∘ Nat.succ) =
        (fun k => (f.higher.getD k zeroPair).1 i * Real.cos (((k + 1 : Nat) : ℝ) * θ) +
          (f.higher.getD k zeroPair).2 i * Real.sin (((k + 1 : Nat) : ℝ) * θ)) := by
      funext k
      show reconAt Real.cos Real.sin f (k + 1) θ i = _
      rw [reconAt, if_neg (Nat.succ_ne_zero k)]
      simp only [Nat.add_sub_cancel]
    rw [h0, hfun]

/-- Claim C9. The combiner at a specific mode fails with InvalidModeIndex
exactly when the requested mode index is not in the stored mode set. -/
theorem invalid_mode_index_iff_not_stored (f : CylField) (m : Nat) (θ : ℝ) :
    combineMode Real.cos Real.sin f m θ = .error .InvalidModeIndex ↔
      m ∉ f.storedModes := by
  rw [CylField.storedModes, List.mem_range]
  by_cases hm0 : m = 0
  · subst hm0
    rw [combineMode, if_pos rfl]
    simp
  · rw [combineMode, if_neg hm0]
    cases hget : f.higher[m - 1]? with
    | none =>
      have := List.getElem?_eq_none_iff.mp hget
      simp only [true_iff]
      omega
    | some pr =>
      have hlt : m - 1 < f.higher.length := by
        by_contra hge
        rw [List.getElem?_eq_none (by omega)] at hget
        exact Option.noConfusion hget
      simp only [false_iff]
      constructor
      · intro h
        exact Except.noConfusion h
      · omega

/-- Modelled from the spec (section 3): per-snapshot iteration metadata
produced by the Header Parser. -/
structure Iteration where
  step : Nat
  time : ℚ
  domain : Box
  spacing : List ℚ
  geometry : Geometry
  fields : List String

/-- Modelled from the spec (section 3, ResultArray): the Info record always
returned alongside the result array: per-axis extents and spacing, time
and iteration. -/
structure FieldInfo where
  time : ℚ
  iteration : Nat
  axes : List String
  lo : List Int
  hi : List Int
  spacing : List ℚ
deriving DecidableEq

/-- The Info record of one iteration. -/
def mkInfo (it : Iteration) : FieldInfo :=
  { time := it.time, iteration := it.step, axes := geomAxes it.geometry,
    lo := it.domain.lo, hi := it.domain.hi, spacing := it.spacing }

/-- Modelled from the spec (4.2): one catalog entry before loading: the
patch bounding box together with its binary-data locator. -/
structure RawPatch where
  box : Box
  locator : Nat
deriving DecidableEq

/-- Modelled from the spec (4.3 and section 5): resolve every patch of the
catalog through the (abstract) Patch Loader; the first failure aborts the
whole load with that failure. -/
def loadAll (loader : RawPatch → Except QueryError (List Int → Int)) :
    List RawPatch → Except QueryError (List Patch)
  | [] => .ok []
  | r :: rs =>
    match loader r with
    | .error e => .error e
    | .ok buf =>
      match loadAll loader rs with
      | .error e => .error e
      | .ok ps => .ok ({ box := r.box, val := buf } :: ps)

theorem loadAll_ok_boxes {loader : RawPatch → Except QueryError (List Int → Int)}
    {raws : List RawPatch} {ps : List Patch}
    (h : loadAll loader raws = .ok ps) : ps.map Patch.box = raws.map RawPatch.box := by
  induction raws generalizing ps with
  | nil =>
    simp only [loadAll] at h
    injection h with h
    subst h
    rfl
  | cons r rs ih =>
    simp only [loadAll] at h
    cases hl : loader r with
    | error e => rw [hl] at h; exact Except.noConfusion h
    | ok buf =>
      rw [hl] at h
      cases hrest : loadAll loader rs with
      | error e => rw [hrest] at h; exact Except.noConfusion h
      | ok qs =>
        rw [hrest] at h
        injection h with h
        subst h
        simp [ih hrest]

theorem loadAll_ok_of_mem {loader : RawPatch → Except QueryError (List Int → Int)}
    {raws : List RawPatch} {ps : List Patch}
    (h : loadAll loader raws = .ok ps) :
    ∀ r ∈ raws, ∃ buf, loader r = .ok buf := by
  induction raws generalizing ps with
  | nil => intro r hr; simp at hr
  | cons r0 rs ih =>
    intro r hr
    simp only [loadAll] at h
    cases hl : loader r0 with
    | error e => rw [hl] at h; exact Except.noConfusion h
    | ok buf =>
      rw [hl] at h
      cases hrest : loadAll loader rs with
      | error e => rw [hrest] at h; exact Except.noConfusion h
      | ok qs =>
        rcases List.mem_cons.mp hr with rfl | hmem
        · exact ⟨buf, hl⟩
        · exact ih hrest r hmem

theorem loadAll_error_of_mem {loader : RawPatch → Except QueryError (List Int → Int)}
    {raws : List RawPatch}
    (h : ∃ r ∈ raws, ∃ e, loader r = .error e) :
    ∃ e, loadAll loader raws = .error e := by
  induction raws with
  | nil => obtain ⟨r, hr, -⟩ := h; simp at hr
  | cons r0 rs ih =>
    obtain ⟨r, hr, e, he⟩ := h
    rcases List.mem_cons.mp hr with rfl | hmem
    · refine ⟨e, ?_⟩
      simp only [loadAll, he]
    · cases hl : loader r0 with
      | error e0 => exact ⟨e0, by simp only [loadAll, hl]⟩
      | ok buf =>
        obtain ⟨e1, he1⟩ := ih ⟨r, hmem, e, he⟩
        exact ⟨e1, by simp only [loadAll, hl, he1]⟩

theorem validateCatalog_none_strict {domain : Box} {bs : List Box}
    (h : validateCatalog true domain bs = none) :
    ∀ c ∈ cellsOf domain, coverCount bs c = 1 := by
  intro c hc
  rw [validateCatalog] at h
  by_cases ho : hasOverlapOn domain bs
  · simp [ho] at h
  · by_cases hg : hasGapOn domain bs
    · simp [ho, hg] at h
    · have h2 : ¬ (2 ≤ coverCount bs c) := by
        intro hcc
        exact ho (by rw [hasOverlapOn, List.any_eq_true]; exact ⟨c, hc, by simpa using hcc⟩)
      have h0 : ¬ (coverCount bs c = 0) := by
        intro hcc
        exact hg (by rw [hasGapOn, List.any_eq_true]; exact ⟨c, hc, by simpa using hcc⟩)
      omega

theorem assemble_ne_none_of_covered {ps : List Patch} {c : List Int}
    (h : 1 ≤ countCover ps c) : assemble ps c ≠ none := by
  have hne : ps.filter (fun r => covers r c) ≠ [] := by
    intro hnil
    simp [countCover, hnil] at h
  obtain ⟨p, hp⟩ := Option.ne_none_iff_exists'.mp
    (mt List.getLast?_eq_none_iff.mp hne)
  rw [assemble_eq_lastCover, lastCover, hp]
  exact Option.noConfusion

/-- Modelled from the spec (sections 6 and 7): the single query operation
exposed to callers: validate the catalog under the caller strictness flag,
load every patch, assemble, then reduce with the Slice Planner; the first
failure aborts the query. -/
def query (checkConsistency : Bool) (it : Iteration)
    (loader : RawPatch → Except QueryError (List Int → Int))
    (raws : List RawPatch) (specs : List (String × ℚ)) :
    Except QueryError (Assembled × FieldInfo) :=
  match validateCatalog checkConsistency it.domain (raws.map RawPatch.box) with
  | some e => .error e
  | none =>
    match loadAll loader raws with
    | .error e => .error e
    | .ok ps =>
      match sliceMulti ⟨geomAxes it.geometry, it.domain, assemble ps⟩ specs with
      | .error e => .error e
      | .ok arr => .ok (arr, mkInfo it)

/-- Claim C8. A query either fails with exactly one error kind or returns
a fully assembled, fully reduced array together with its Info record: any
patch-load failure aborts the whole query; on success every patch loaded,
the result array is the sliced assembly of the complete patch set with the
Info record of the iteration, and under strict validation every domain
cell of the assembly is covered exactly once and initialized. -/
theorem query_atomic_or_fails (checkConsistency : Bool) (it : Iteration)
    (loader : RawPatch → Except QueryError (List Int → Int))
    (raws : List RawPatch) (specs : List (String × ℚ)) :
    ((∃ res, query checkConsistency it loader raws specs = .ok res) ∨
      (∃ e, query checkConsistency it loader raws specs = .error e)) ∧
    ((∃ r ∈ raws, ∃ e, loader r = .error e) →
      ∃ e, query checkConsistency it loader raws specs = .error e) ∧
    (∀ arr info, query checkConsistency it loader raws specs = .ok (arr, info) →
      info = mkInfo it ∧
      (∀ r ∈ raws, ∃ buf, loader r = .ok buf) ∧
      ∃ ps, loadAll loader raws = .ok ps ∧
        sliceMulti ⟨geomAxes it.geometry, it.domain, assemble ps⟩ specs = .ok arr ∧
        (checkConsistency = true →
          ∀ c ∈ cellsOf it.domain, countCover ps c = 1 ∧ assemble ps c ≠ none)) := by
  refine ⟨?_, ?_, ?_⟩
  · cases hq : query checkConsistency it loader raws specs with
    | ok res => exact Or.inl ⟨res, rfl⟩
    | error e => exact Or.inr ⟨e, rfl⟩
  · intro hfail
    rw [query]
    cases hv : validateCatalog checkConsistency it.domain (raws.map RawPatch.box) with
    | some e => exact ⟨e, rfl⟩
    | none =>
      obtain ⟨e, he⟩ := loadAll_error_of_mem hfail
      rw [he]
      exact ⟨e, rfl⟩
  · intro arr info hq
    rw [query] at hq
    cases hv : validateCatalog checkConsistency it.domain (raws.map RawPatch.box) with
    | some e => rw [hv] at hq; exact Except.noConfusion hq
    | none =>
      rw [hv] at hq
      cases hload : loadAll loader raws with
      | error e => rw [hload] at hq; exact Except.noConfusion hq
      | ok ps =>
        rw [hload] at hq
        have hq2 : (match sliceMulti ⟨geomAxes it.geometry, it.domain, assemble ps⟩ specs with
            | Except.error e => (Except.error e : Except QueryError (Assembled × FieldInfo))
            | Except.ok arr2 => Except.ok (arr2, mkInfo it)) = Except.ok (arr, info) := hq
        clear hq
        cases hslice : sliceMulti ⟨geomAxes it.geometry, it.domain, assemble ps⟩ specs with
        | error e => rw [hslice] at hq2; exact Except.noConfusion hq2
        | ok arr2 =>
          rw [hslice] at hq2
          injection hq2 with hq2
          injection hq2 with hq1 hq3
          subst hq1
          subst hq3
          refine ⟨rfl, loadAll_ok_of_mem hload, ps, rfl, hslice, ?_⟩
          intro hstrict c hc
          subst hstrict
          have hcount := validateCatalog_none_strict hv c hc
          rw [← loadAll_ok_boxes hload, ← countCover_eq_coverCount] at hcount
          exact ⟨hcount, assemble_ne_none_of_covered (by omega)⟩

/-- A file system, contents by path. -/
def FileSystem := String → Option String

/-- The fixed output path used by the launcher script. -/
def notebookPath : String := "./plotfile-visualization.ipynb"

/-- The plotfile_notebook launcher script
(plotfile_viewer/notebook_starter/plotfile_notebook): it writes the decoded
contents of the packaged template notebook to the fixed relative path
plotfile-visualization.ipynb (python open mode w: the file is created or
truncated unconditionally, with no existence check), and then launches
jupyter on that file through os.system. The result is the file system
after the write, paired with the shell command issued afterwards. -/
def plotfile_notebook (notebook_text : String) (fs : FileSystem) : FileSystem × String :=
  (fun p => if p = notebookPath then some notebook_text else fs p,
   "jupyter notebook plotfile-visualization.ipynb")

/-- Claim C10. One invocation of the launcher writes the decoded template
to the fixed path in the current directory, overwriting any existing file
of that name unconditionally, modifies no other file, and launches jupyter
on that notebook file. -/
theorem launcher_writes_fixed_path_only (notebook_text : String) (fs : FileSystem) :
    ((plotfile_notebook notebook_text fs).1 notebookPath = some notebook_text) ∧
    (∀ old, fs notebookPath = some old →
      (plotfile_notebook notebook_text fs).1 notebookPath = some notebook_text) ∧
    (∀ p, p ≠ notebookPath → (plotfile_notebook notebook_text fs).1 p = fs p) ∧
    (plotfile_notebook notebook_text fs).2 = "jupyter notebook plotfile-visualization.ipynb" := by
  refine ⟨?_, ?_, ?_, rfl⟩
  · show (if notebookPath = notebookPath then some notebook_text else fs notebookPath) =
      some notebook_text
    rw [if_pos rfl]
  · intro old _
    show (if notebookPath = notebookPath then some notebook_text else fs notebookPath) =
      some notebook_text
    rw [if_pos rfl]
  · intro p hp
    show (if p = notebookPath then some notebook_text else fs p) = fs p
    rw [if_neg hp]

/-- Example domain for the assembler claims: the 2 x 2 index box. -/
def exDomain : Box := { lo := [0, 0], hi := [1, 1] }

/-- Example patch A: the left column of the example domain, value 1. -/
def pA : Patch := { box := { lo := [0, 0], hi := [0, 1] }, val := fun _ => 1 }

/-- Example patch B: the right column of the example domain, value 2. -/
def pB : Patch := { box := { lo := [1, 0], hi := [1, 1] }, val := fun _ => 2 }

/-- Witness for claim C1 on the two-patch exact tiling of the 2 x 2
domain: cell (0, 1) is written exactly once, is initialized and carries
the value of patch A; and at the covered cell (1, 0) the result is the
value of the last covering patch of the catalog. -/
theorem assembler_exactly_once_witness :
    countCover [pA, pB] [0, 1] = 1 ∧
    assemble [pA, pB] [0, 1] ≠ none ∧
    assemble [pA, pB] [0, 1] = some 1 ∧
    ∃ p, lastCover [pA, pB] [1, 0] = some p ∧
      assemble [pA, pB] [1, 0] = some (p.val [1, 0]) := by
  have h := (assembler_exactly_once_and_last_write_wins exDomain [pA, pB]).1
    (by decide) [0, 1] (by decide)
  have h2 := (assembler_exactly_once_and_last_write_wins exDomain [pA, pB]).2
    [1, 0] (by decide)
  exact ⟨h.1, h.2.1, h.2.2 pA (List.mem_cons_self _ _) (by decide), h2⟩

/-- Example one-dimensional domain for the validation witness. -/
def exDomain1 : Box := { lo := [0], hi := [1] }

/-- First overlapping catalog box: the whole of exDomain1. -/
def bOv1 : Box := { lo := [0], hi := [1] }

/-- Second overlapping catalog box: the right cell of exDomain1. -/
def bOv2 : Box := { lo := [1], hi := [1] }

/-- Witness for claim C2 on an overlapping catalog: strict validation
fails with one of the two tiling defects and a multiply covered domain
cell exists. -/
theorem catalog_validation_witness :
    (validateCatalog true exDomain1 [bOv1, bOv2] = some .PatchOverlap ∨
      validateCatalog true exDomain1 [bOv1, bOv2] = some .PatchGap) ∧
    ∃ c ∈ cellsOf exDomain1, 2 ≤ coverCount [bOv1, bOv2] c := by
  have h := catalog_validation_iff_tiling_defect exDomain1 [bOv1, bOv2]
  exact ⟨h.1.mpr (by decide), h.2.1 (by decide)⟩

/-- Example cylindrical field with stored modes 0 and 1. -/
def exCyl : CylField :=
  { mode0 := fun _ => 2, higher := [(fun _ => 3, fun _ => 5)] }

/-- Witness for claim C3: the specific-mode reconstruction of stored mode
1 of the example field at angle 0. -/
theorem azimuthal_mode_combination_witness :
    combineMode Real.cos Real.sin exCyl 1 0 =
      .ok (fun _ => (3 : ℝ) * Real.cos (((1 : Nat) : ℝ) * 0) +
        (5 : ℝ) * Real.sin (((1 : Nat) : ℝ) * 0)) :=
  (azimuthal_mode_combination exCyl 0).2.1 1 (le_refl 1) (fun _ => 3, fun _ => 5) rfl

/-- Witness for the amended claim C4 on the 3D Cartesian example array:
an unknown axis is InvalidSliceAxis, a known axis with position 2 is
SlicePositionOutOfRange, and position -1 on axis y selects the lowest
index plane. -/
theorem slice_planner_witness :
    sliceOnce exCart3 "w" 0 = .error .InvalidSliceAxis ∧
    sliceOnce exCart3 "x" 2 = .error .SlicePositionOutOfRange ∧
    ∃ r, sliceOnce exCart3 "y" (-1) = .ok r ∧
      ∀ c, r.data c = exCart3.data (c.insertIdx 1 ((0 : Int))) := by
  refine ⟨?_, ?_, ?_⟩
  · exact (slice_planner_error_characterization exCart3 "w" 0).1.mpr (by decide)
  · exact (slice_planner_error_characterization exCart3 "x" 2).2.1.mpr
      ⟨by decide, Or.inr (by norm_num)⟩
  · exact ((slice_planner_error_characterization exCart3 "y" (-1)).2.2 1 (by decide)).1

/-- Example patch for the slicing witnesses: the whole 2 x 3 box, value
7. -/
def pW : Patch := { box := { lo := [0, 0], hi := [1, 2] }, val := fun _ => 7 }

/-- Witness for claim C5: slicing the one-patch assembly at relative
position +1 across z yields the plane at the highest z index. -/
theorem slice_extremes_witness :
    ∃ r, sliceOnce ⟨["x", "z"], { lo := [0, 0], hi := [1, 2] }, assemble [pW]⟩ "z" 1 = .ok r ∧
      ∀ c, r.data c = assemble [pW] (c.insertIdx 1 (2 : Int)) :=
  (slice_extremes_boundary_planes [pW] ["x", "z"] { lo := [0, 0], hi := [1, 2] } "z" 1
    (by decide) (by decide)).2.1

/-- Witness for claim C6: slicing the example array across x and then z
with both boundary positions. -/
theorem multi_axis_slice_witness :
    ∃ r, sliceMulti ⟨["x", "z"], { lo := [0, 0], hi := [1, 2] }, assemble [pW]⟩
        [("x", 1), ("z", -1)] = .ok r ∧
      ∀ c, c.length = 0 →
        r.data c = assemble [pW] (fillCell ["x", "z"] [0, 0] [1, 2] [("x", 1), ("z", -1)] c) :=
  multi_axis_slice_uses_original_extents [("x", 1), ("z", -1)] ["x", "z"] [0, 0] [1, 2]
    (assemble [pW]) rfl rfl (by decide) (by decide) (by decide) (by decide)

/-- Witness for claim C7: no slice on the 3D example leaves it unchanged
with its native dimensionality 3. -/
theorem no_slice_returns_unchanged_witness :
    sliceMulti exCart3 [] = .ok exCart3 ∧ exCart3.ndim = 3 :=
  ⟨(no_slice_returns_unchanged exCart3).1, (no_slice_returns_unchanged exCart3).2.2 rfl⟩

/-- Example iteration over a single-cell 2D domain. -/
def exIter : Iteration :=
  { step := 5, time := 1 / 2, domain := { lo := [0, 0], hi := [0, 0] },
    spacing := [1, 1], geometry := .cartesian2d, fields := ["E"] }

/-- The single raw catalog entry of the example iteration. -/
def exRaw : RawPatch := { box := { lo := [0, 0], hi := [0, 0] }, locator := 0 }

/-- A loader failing on every patch. -/
def failLoader : RawPatch → Except QueryError (List Int → Int) :=
  fun _ => .error .TruncatedPatch

/-- A loader succeeding with a constant buffer. -/
def okLoader : RawPatch → Except QueryError (List Int → Int) :=
  fun _ => .ok (fun _ => 4)

/-- The assembled result of the successful example query. -/
def arr0 : Assembled :=
  { axes := geomAxes .cartesian2d, box := { lo := [0, 0], hi := [0, 0] },
    data := assemble [{ box := { lo := [0, 0], hi := [0, 0] }, val := fun _ => 4 }] }

/-- Witness for claim C8: with the failing loader the query aborts with an
error; with the successful loader every patch loads, and under strict
validation every domain cell is covered once and initialized. -/
theorem query_atomic_witness :
    (∃ e, query true exIter failLoader [exRaw] [] = .error e) ∧
    (∀ r ∈ [exRaw], ∃ buf, okLoader r = .ok buf) ∧
    (∃ ps, loadAll okLoader [exRaw] = .ok ps ∧
      sliceMulti ⟨geomAxes exIter.geometry, exIter.domain, assemble ps⟩ [] = .ok arr0 ∧
      (true = true → ∀ c ∈ cellsOf exIter.domain,
        countCover ps c = 1 ∧ assemble ps c ≠ none)) := by
  have h1 := (query_atomic_or_fails true exIter failLoader [exRaw] []).2.1
    ⟨exRaw, List.mem_cons_self _ _, .TruncatedPatch, rfl⟩
  have h2 := (query_atomic_or_fails true exIter okLoader [exRaw] []).2.2 arr0
    (mkInfo exIter) rfl
  exact ⟨h1, h2.2.1, h2.2.2⟩

/-- A starting file system already holding a stale notebook file at the
fixed path. -/
def exFS : FileSystem := fun p => if p = notebookPath then some "stale" else none

/-- Witness for claim C10: launching over a file system with an existing
notebook file overwrites it with the template and issues the jupyter
command. -/
theorem launcher_witness :
    (plotfile_notebook "template" exFS).1 notebookPath = some "template" ∧
    (plotfile_notebook "template" exFS).2 = "jupyter notebook plotfile-visualization.ipynb" := by
  have h := launcher_writes_fixed_path_only "template" exFS
  exact ⟨h.2.1 "stale" (by simp [exFS]), h.2.2.2⟩

end PlotfileViewer
